import Mathlib

/-!
Verification development for the DDO wiki monster scraper (src/main.py).

Strings are modelled as lists of characters (`Str`). Python string methods
(`strip`, `lower`, `split`, `replace`, `startswith`) are embedded as
executable functions on `Str`; `str.lower` is modelled on the ASCII range,
`str.strip` on the usual ASCII whitespace characters, which is what every
quest and monster name in scope uses. Python dicts keyed by strings are
modelled as association lists with insert-or-overwrite semantics, and a
pandas DataFrame built from a list of dicts is modelled as a list of rows
(association lists) together with its first-seen column order. Fallible
steps (indexing an empty list, sorting by a missing column) return
`Option`/an error result instead of raising.
-/

namespace DDOScraper

/-- Python text, modelled as a list of characters. -/
abbrev Str := List Char

/-- ASCII whitespace recognised by the model of Python `str.strip`. -/
def wsB (c : Char) : Bool := c == ' ' || c == '\t' || c == '\n' || c == '\r'

/-- Model of Python `str.strip()`: drop leading and trailing whitespace. -/
def pyStrip (s : Str) : Str := ((s.dropWhile wsB).reverse.dropWhile wsB).reverse

/-- Lower-case one character (ASCII model of Python `str.lower`). -/
def lowChar (c : Char) : Char :=
  if 65 ≤ c.toNat ∧ c.toNat ≤ 90 then Char.ofNat (c.toNat + 32) else c

/-- Model of Python `str.lower()` (ASCII range). -/
def pyLower (s : Str) : Str := s.map lowChar

/-- Model of Python `str.split(sep)` for a one-character separator:
adjacent separators produce empty fields and the empty string splits
to one empty field. -/
def splitOnChar (sep : Char) : Str → List Str
  | [] => [[]]
  | c :: cs =>
    match splitOnChar sep cs with
    | [] => [[c]]
    | t :: ts => if c = sep then [] :: t :: ts else (c :: t) :: ts

/-- Fuel-driven scanner for `replAll`; the wrapper supplies enough fuel
for the scan to finish, so the fuel-exhausted branch is never reached. -/
def replAllGo (pat : Str) : Nat → Str → Str
  | _, [] => []
  | 0, s => s
  | fuel + 1, c :: cs =>
    if pat.isPrefixOf (c :: cs) then replAllGo pat fuel (List.drop pat.length (c :: cs))
    else c :: replAllGo pat fuel cs

/-- Model of Python `value.replace(pat, "")`: delete every left-to-right
non-overlapping occurrence of `pat`. -/
def replAll (pat : Str) (s : Str) : Str :=
  if pat = [] then s else replAllGo pat (s.length + 1) s

/-- Delete only the first occurrence of `pat` (used by the spec-side
cleaning definition, not by the code). -/
def replFirst (pat : Str) : Str → Str
  | [] => []
  | c :: cs =>
    if pat.isPrefixOf (c :: cs) ∧ pat ≠ [] then List.drop pat.length (c :: cs)
    else c :: replFirst pat cs

/-! ### difflib.SequenceMatcher, junk-free case (quest names are short,
so autojunk never fires). `cpl` is the common-prefix length; `bestMatch`
returns the longest matching block `(i, j, size)` of the two strings,
ties resolved to the smallest `i`, then the smallest `j`, exactly the
tie-break of `find_longest_match`; `matched` is the total size of all
matching blocks found by the recursive divide-and-conquer of
`get_matching_blocks`. -/

/-- Length of the common prefix of two strings. -/
def cpl : Str → Str → Nat
  | a :: as, b :: bs => if a = b then cpl as bs + 1 else 0
  | _, _ => 0

/-- All index pairs `(i, j)` with `i < n`, `j < m`, in scan order. -/
def allPairs (n m : Nat) : List (Nat × Nat) :=
  (List.range n).flatMap (fun i => (List.range m).map (fun j => (i, j)))

/-- One step of the longest-matching-block search: adopt `(i, j)` only
when its match is strictly longer than the best seen so far. -/
def bestStep (a b : Str) (acc : Nat × Nat × Nat) (ij : Nat × Nat) : Nat × Nat × Nat :=
  let k := cpl (a.drop ij.1) (b.drop ij.2)
  if acc.2.2 < k then (ij.1, ij.2, k) else acc

/-- Longest matching block of `a` and `b` (start in `a`, start in `b`,
length), with `find_longest_match`'s tie-break. -/
def bestMatch (a b : Str) : Nat × Nat × Nat :=
  (allPairs a.length b.length).foldl (bestStep a b) (0, 0, 0)

/-- Total matched characters, fuel-driven; each recursion strictly
shrinks the combined length, so fuel `a.length + b.length` suffices. -/
def matchedF : Nat → Str → Str → Nat
  | 0, _, _ => 0
  | fuel + 1, a, b =>
    let t := bestMatch a b
    if t.2.2 = 0 then 0
    else
      t.2.2 + matchedF fuel (a.take t.1) (b.take t.2.1) +
        matchedF fuel (a.drop (t.1 + t.2.2)) (b.drop (t.2.1 + t.2.2))

/-- Total size of all matching blocks (the `matches` of `ratio()`). -/
def matched (a b : Str) : Nat := matchedF (a.length + b.length) a b

/-- `SequenceMatcher(None, a, b).ratio()`: `2 * matches / (len(a) + len(b))`,
and `1` when both strings are empty (difflib's `_calculate_ratio`). -/
def ratioScore (a b : Str) : ℚ :=
  if a.length + b.length = 0 then 1
  else (2 * (matched a b : ℚ)) / ((a.length + b.length : Nat) : ℚ)

/-- Similarity score of `get_closest_matching_quest`: the ratio of the
lower-cased, stripped strings (main.py lines 159-161). -/
def simScore (a b : Str) : ℚ := ratioScore (pyStrip (pyLower a)) (pyStrip (pyLower b))

/-! ### The fuzzy matcher (get_closest_matching_quest) -/

/-- Comparison used by `sorted(..., key=lambda x: x[0])`. -/
def scoreLeB (p q : ℚ × Str) : Bool := decide (p.1 ≤ q.1)

/-- Stable ascending insertion: a new element goes after every element
that compares less-or-equal, which is the unique stable ascending order
(the output of Python's stable `sorted`). -/
def sinsert {α : Type} (le : α → α → Bool) (x : α) : List α → List α
  | [] => [x]
  | y :: ys => if le y x then y :: sinsert le x ys else x :: y :: ys

/-- Model of Python `sorted` with a key: fold stable insertions. -/
def pySorted {α : Type} (le : α → α → Bool) (l : List α) : List α :=
  l.foldl (fun d x => sinsert le x d) []

/-- The scored candidate list `zip(candidate_scores, candidate_names)`
(main.py lines 154-164). -/
def scoredCandidates (q : Str) (cands : List Str) : List (ℚ × Str) :=
  cands.map (fun c => (simScore q c, c))

/-- `get_closest_matching_quest` on string candidates: sort the scored
pairs ascending by score and take the last name; `[-1]` on an empty
list raises IndexError, modelled as `none`. -/
def getClosestMatchingQuest (q : Str) (cands : List Str) : Option Str :=
  ((pySorted scoreLeB (scoredCandidates q cands)).map Prod.snd).getLast?

/-- Python `str(x)` on an optional string: `str(None)` is the text
`"None"` (main.py line 150 applies `str` to every candidate before the
`is None` test, which is therefore dead code). -/
def pyStrOfOpt : Option Str → Str
  | none => "None".data
  | some s => s

/-- `get_closest_matching_quest` as reached with a candidate sequence
that may contain `None`. -/
def getClosestOpt (q : Str) (cands : List (Option Str)) : Option Str :=
  getClosestMatchingQuest q (cands.map pyStrOfOpt)

/-- Score a raw candidate exactly as the loop body does: `str` first,
then the (dead) `None` test, then the ratio. -/
def scoreOfCand (q : Str) (c : Option Str) : ℚ := simScore q (pyStrOfOpt c)

/-- Modelled from the spec: the candidate the matcher must return, "the
last-listed candidate among those tied for highest score in original
input order". Defined by recursion: the head wins only when its score
strictly exceeds the best of the tail, so on ties the later candidate
wins. -/
def specBestCandidate : List (ℚ × Str) → Option (ℚ × Str)
  | [] => none
  | p :: ps =>
    match specBestCandidate ps with
    | none => some p
    | some b => if b.1 < p.1 then some p else some b

/-- Merge an accumulated best with one more scored candidate; the new
candidate wins ties (it is listed later). -/
def mergeOne (o : Option (ℚ × Str)) (x : ℚ × Str) : ℚ × Str :=
  match o with
  | none => x
  | some m => if m.1 ≤ x.1 then x else m

/-- Left fold of `mergeOne`, characterising the last element of the
stable ascending sort. -/
def lastFrom (o : Option (ℚ × Str)) : List (ℚ × Str) → Option (ℚ × Str)
  | [] => o
  | x :: xs => lastFrom (some (mergeOne o x)) xs

/-! ### The record extractor (get_monster_info, pure part) -/

/-- One monster record: an insertion-ordered dict from field keyword to
extracted text. -/
abbrev Row := List (Str × Str)

/-- The keys of a dict, in insertion order. -/
def keys (d : Row) : List Str := d.map Prod.fst

/-- Dict lookup: value of the first entry with the given key. -/
def dlookup (d : Row) (k : Str) : Option Str :=
  (d.find? (fun p => decide (p.1 = k))).map Prod.snd

/-- Dict assignment `d[k] = v`: overwrite in place when the key exists,
append otherwise. -/
def dictInsert (d : Row) (k : Str) (v : Str) : Row :=
  if k ∈ keys d then d.map (fun p => if p.1 = k then (k, v) else p)
  else d ++ [(k, v)]

/-- Python `line.startswith(tuple(keywords))`: true when some keyword is
a prefix (false for an empty keyword tuple). -/
def startswithAny (kws : List Str) (l : Str) : Bool :=
  kws.any (fun k => k.isPrefixOf l)

/-- The pre-filtered lines of `get_monster_info` (main.py lines 118-121):
split on newlines, strip, drop empties, keep lines starting with a
configured keyword. -/
def filteredLines (text : Str) (kws : List Str) : List Str :=
  ((((splitOnChar '\n' text).map pyStrip).filter (fun l => !l.isEmpty)).filter
    (startswithAny kws))

/-- The raw value selected for one keyword: the first pre-filtered line
that starts with it, or the empty string (the loop's `else` clause). -/
def rawValue (lines : List Str) (k : Str) : Str :=
  match lines.find? (fun l => k.isPrefixOf l) with
  | some l => l
  | none => []

/-- The keyword scan of main.py lines 124-131 as a fold of dict
assignments. -/
def scanFold (lines : List Str) (d : Row) : List Str → Row
  | [] => d
  | k :: ks => scanFold lines (dictInsert d k (rawValue lines k)) ks

/-- The dict `monster_info` right after the keyword scan. -/
def rawInfo (text : Str) (kws : List Str) : Row :=
  scanFold (filteredLines text kws) [] kws

/-- The cleaning of main.py lines 134-139: delete every occurrence of
the keyword, every colon, every `"(List)"`, then strip. -/
def cleanVal (k v : Str) : Str :=
  pyStrip (replAll "(List)".data (replAll ":".data (replAll k v)))

/-- `get_monster_info` after cleaning: every value of the scanned dict
is cleaned with its own key. -/
def monsterInfo (text : Str) (kws : List Str) : Row :=
  (rawInfo text kws).map (fun p => (p.1, cleanVal p.1 p.2))

/-- Modelled from the spec: the cleaning as the spec words it, deleting
only the first occurrence of the keyword, then all colons, then all
`"(List)"` markers, then stripping. -/
def specCleanFirst (k v : Str) : Str :=
  pyStrip (replAll "(List)".data (replAll ":".data (replFirst k v)))

/-! ### The alignment decomposer (get_lawfulness / get_goodness) -/

/-- The special-case substitution: a trimmed value whose lower-casing is
`"true neutral"` becomes `"Neutral Neutral"`. -/
def tnSub (t : Str) : Str :=
  if pyLower t = "true neutral".data then "Neutral Neutral".data else t

/-- Token selection of `get_lawfulness`: first token (empty on no tokens). -/
def lawTok : List Str → Str
  | [] => []
  | [x] => x
  | x :: _ :: _ => x

/-- Token selection of `get_goodness`: the single token, or the second. -/
def goodTok : List Str → Str
  | [] => []
  | [x] => x
  | _ :: y :: _ => y

/-- The per-element body of `get_lawfulness` (main.py lines 176-195). -/
def law1 (a : Str) : Str :=
  if a = [] then [] else lawTok (splitOnChar ' ' (tnSub (pyStrip a)))

/-- The per-element body of `get_goodness` (main.py lines 206-225). -/
def good1 (a : Str) : Str :=
  if a = [] then [] else goodTok (splitOnChar ' ' (tnSub (pyStrip a)))

/-- `get_lawfulness`: the appending loop over the input sequence. -/
def lawfulnessOf : List Str → List Str
  | [] => []
  | a :: as => law1 a :: lawfulnessOf as

/-- `get_goodness`: the appending loop over the input sequence. -/
def goodnessOf : List Str → List Str
  | [] => []
  | a :: as => good1 a :: goodnessOf as

/-! ### The pipeline tail of get_monsters_in_quest (main.py lines 44-53):
derive Lawfulness/Goodness when an Alignment column exists, drop
Alignment, then sort by the four named columns. -/

/-- DataFrame column order: keys in first-seen order across the rows. -/
def columnsOf (rows : List Row) : List Str :=
  rows.foldl (fun acc r => acc ++ (keys r).filter (fun k => decide (k ∉ acc))) []

/-- Value of a row in a named column (the pipeline only reads columns it
has checked are present, so the default is never observed). -/
def gv (r : Row) (c : Str) : Str := (dlookup r c).getD []

/-- The sort key of one row: the tuple (Lawfulness, Goodness, Race, Name). -/
def rowKey (r : Row) : List Str :=
  [gv r "Lawfulness".data, gv r "Goodness".data, gv r "Race".data, gv r "Name".data]

/-- Three-way comparison of naturals. -/
def natCmp (m n : Nat) : Ordering :=
  if m < n then .lt else if n < m then .gt else .eq

/-- Lexicographic three-way comparison of strings by code point, the
comparison Python uses on `str`. -/
def strCmp : Str → Str → Ordering
  | [], [] => .eq
  | [], _ :: _ => .lt
  | _ :: _, [] => .gt
  | a :: as, b :: bs =>
    match natCmp a.toNat b.toNat with
    | .lt => .lt
    | .gt => .gt
    | .eq => strCmp as bs

/-- Lexicographic comparison of equal-length key tuples. -/
def keyCmp : List Str → List Str → Ordering
  | [], [] => .eq
  | [], _ :: _ => .lt
  | _ :: _, [] => .gt
  | x :: xs, y :: ys =>
    match strCmp x y with
    | .lt => .lt
    | .gt => .gt
    | .eq => keyCmp xs ys

/-- Truth of "not greater" for an `Ordering`. -/
def ordNotGt : Ordering → Bool
  | .gt => false
  | _ => true

/-- Row order of `sort_values(["Lawfulness", "Goodness", "Race", "Name"])`:
non-decreasing under the lexicographic key tuple. -/
def rowLeB (r s : Row) : Bool := ordNotGt (keyCmp (rowKey r) (rowKey s))

/-- All rows share one key list (true of every table the pipeline
assembles, since `get_monster_info` always emits the full schema). -/
def uniformB (rows : List Row) : Bool :=
  match rows with
  | [] => true
  | r :: rs => rs.all (fun s => decide (keys s = keys r))

/-- Per-row effect of main.py lines 47-49: append the two derived
columns from the row's Alignment value, then drop Alignment. -/
def deriveRow (r : Row) : Row :=
  ((dictInsert (dictInsert r "Lawfulness".data (law1 (gv r "Alignment".data)))
      "Goodness".data (good1 (gv r "Alignment".data))).filter
    (fun p => decide (p.1 ≠ "Alignment".data)))

/-- Result of the DataFrame stage: a table, or the KeyError that
`sort_values` raises when a sort column is missing. -/
inductive PdResult where
  | ok (t : List Row)
  | keyError
deriving DecidableEq

/-- The four sort columns of main.py line 50. -/
def sortCols : List Str :=
  ["Lawfulness".data, "Goodness".data, "Race".data, "Name".data]

/-- The guarded derivation of main.py lines 46-49: only when an
Alignment column exists are the two derived columns added and the raw
column dropped. -/
def deriveStage (rows : List Row) : List Row :=
  if "Alignment".data ∈ columnsOf rows then rows.map deriveRow else rows

/-- The pure tail of `get_monsters_in_quest`: derive and drop Alignment
when that column exists, then sort by the four columns, which raises
KeyError when any of them is absent. -/
def assembleTable (rows : List Row) : PdResult :=
  if sortCols.all (fun c => decide (c ∈ columnsOf (deriveStage rows))) then
    .ok (pySorted rowLeB (deriveStage rows))
  else .keyError

/-! ### The read-eval loop (main_loop, main.py lines 229-259) -/

/-- How one run of `main_loop` ends. `crashed` is an uncaught exception
escaping the loop (there is no `try` around the query resolution);
`eofError` is `input()` raising EOFError when the input is exhausted. -/
inductive LoopExit where
  | quitExit
  | configExit (msg : Str)
  | crashed (msg : Str)
  | eofError
deriving DecidableEq

/-- The quit tokens of main.py line 243. -/
def quitTokens : List Str := ["q".data, "quit".data, "exit".data]

/-- `main_loop` over a finite list of user inputs, abstracting config
loading and `get_monsters_in_quest` as fallible oracles: strip and
lower the input, quit on a quit token, break with a message when the
config cannot be loaded, and otherwise resolve the query — an error
there propagates and ends the loop. -/
def mainLoop (cfg : Except Str Unit) (resolve : Str → Except Str (List Row)) :
    List Str → LoopExit
  | [] => .eofError
  | inp :: rest =>
    if pyLower (pyStrip inp) ∈ quitTokens then .quitExit
    else
      match cfg with
      | .error m => .configExit m
      | .ok _ =>
        match resolve (pyLower (pyStrip inp)) with
        | .error e => .crashed e
        | .ok _ => mainLoop cfg resolve rest

/-! ## Dict lemmas for the record extractor -/

theorem dlookup_cons (p : Str × Str) (ps : Row) (k : Str) :
    dlookup (p :: ps) k = if p.1 = k then some p.2 else dlookup ps k := by
  by_cases h : p.1 = k <;> simp [dlookup, List.find?_cons, h]

theorem dlookup_eq_none {d : Row} {k : Str} : dlookup d k = none ↔ k ∉ keys d := by
  induction d with
  | nil => simp [dlookup, keys]
  | cons p ps ih =>
    rw [dlookup_cons]
    by_cases h : p.1 = k
    · simp only [if_pos h, keys, List.map_cons]
      constructor
      · intro hc
        exact absurd hc (by simp)
      · intro hc
        exact absurd (List.mem_cons_self _ _) (h ▸ hc)
    · rw [if_neg h, ih]
      constructor
      · intro hn hm
        rcases List.mem_cons.mp hm with h1 | h1
        · exact h (h1.symm)
        · exact hn h1
      · intro hn hm
        exact hn (List.mem_cons_of_mem _ hm)

theorem keys_dictInsert (d : Row) (k v : Str) :
    keys (dictInsert d k v) = if k ∈ keys d then keys d else keys d ++ [k] := by
  by_cases hk : k ∈ keys d
  · rw [dictInsert, if_pos hk, if_pos hk]
    show List.map _ _ = _
    rw [List.map_map]
    apply List.map_congr_left
    intro p _
    by_cases h : p.1 = k
    · simp only [Function.comp_apply, if_pos h]
      exact h.symm
    · simp only [Function.comp_apply, if_neg h]
  · rw [dictInsert, if_neg hk, if_neg hk]
    simp [keys]

theorem nodup_keys_dictInsert {d : Row} (k v : Str) (h : (keys d).Nodup) :
    (keys (dictInsert d k v)).Nodup := by
  rw [keys_dictInsert]
  by_cases hk : k ∈ keys d
  · simpa [hk] using h
  · rw [if_neg hk, List.nodup_append]
    refine ⟨h, List.nodup_singleton k, ?_⟩
    intro a ha hb
    rw [List.mem_singleton] at hb
    subst hb
    exact hk ha

theorem dlookup_map_overwrite (d : Row) (k k' v : Str) (h : k' ≠ k) :
    dlookup (d.map (fun p => if p.1 = k then (k, v) else p)) k' = dlookup d k' := by
  induction d with
  | nil => rfl
  | cons p ps ih =>
    rw [List.map_cons, dlookup_cons, dlookup_cons]
    by_cases hp : p.1 = k
    · rw [if_pos hp]
      have h1 : ¬ ((k, v).1 = k') := fun e => h (e.symm)
      have h2 : ¬ (p.1 = k') := by rw [hp]; exact h1
      rw [if_neg h1, if_neg h2, ih]
    · rw [if_neg hp]
      by_cases hp' : p.1 = k'
      · rw [if_pos hp', if_pos hp']
      · rw [if_neg hp', if_neg hp', ih]

theorem dlookup_map_overwrite_self (d : Row) (k v : Str) (hk : k ∈ keys d) :
    dlookup (d.map (fun p => if p.1 = k then (k, v) else p)) k = some v := by
  induction d with
  | nil => exact absurd hk (by simp [keys])
  | cons p ps ih =>
    rw [List.map_cons, dlookup_cons]
    by_cases hp : p.1 = k
    · rw [if_pos hp]
      simp
    · rw [if_neg hp, if_neg hp]
      apply ih
      rcases List.mem_cons.mp (show k ∈ p.1 :: keys ps from hk) with h1 | h1
      · exact absurd h1.symm hp
      · exact h1

theorem dlookup_append_single_ne (d : Row) (k k' v : Str) (h : k' ≠ k) :
    dlookup (d ++ [(k, v)]) k' = dlookup d k' := by
  induction d with
  | nil =>
    have h1 : ¬ ((k, v).1 = k') := fun e => h (e.symm)
    simp [dlookup_cons, h1, dlookup]
  | cons p ps ih =>
    rw [List.cons_append, dlookup_cons, dlookup_cons, ih]

theorem dlookup_append_single_self (d : Row) (k v : Str) (hk : k ∉ keys d) :
    dlookup (d ++ [(k, v)]) k = some v := by
  induction d with
  | nil => simp [dlookup_cons, dlookup]
  | cons p ps ih =>
    rw [List.cons_append, dlookup_cons]
    have hp : ¬ (p.1 = k) := by
      intro e
      exact hk (by simp [keys, e])
    rw [if_neg hp]
    exact ih (fun hm => hk (by simp [keys] at hm ⊢; exact Or.inr hm))

theorem dlookup_dictInsert_self (d : Row) (k v : Str) :
    dlookup (dictInsert d k v) k = some v := by
  by_cases hk : k ∈ keys d
  · rw [dictInsert, if_pos hk]
    exact dlookup_map_overwrite_self d k v hk
  · rw [dictInsert, if_neg hk]
    exact dlookup_append_single_self d k v hk

theorem dlookup_dictInsert_ne (d : Row) {k k' : Str} (v : Str) (h : k' ≠ k) :
    dlookup (dictInsert d k v) k' = dlookup d k' := by
  by_cases hk : k ∈ keys d
  · rw [dictInsert, if_pos hk]
    exact dlookup_map_overwrite d k k' v h
  · rw [dictInsert, if_neg hk]
    exact dlookup_append_single_ne d k k' v h

theorem scanFold_lookup (lines : List Str) :
    ∀ (ks : List Str) (d : Row) (k : Str),
      dlookup (scanFold lines d ks) k =
        if k ∈ ks then some (rawValue lines k) else dlookup d k := by
  intro ks
  induction ks with
  | nil => intro d k; simp [scanFold]
  | cons k0 ks ih =>
    intro d k
    rw [scanFold, ih]
    by_cases hks : k ∈ ks
    · simp [hks, List.mem_cons]
    · by_cases hk0 : k = k0
      · subst hk0
        simp [hks, dlookup_dictInsert_self]
      · simp [hks, hk0, dlookup_dictInsert_ne d (rawValue lines k0) hk0]

theorem keys_scanFold_mem (lines : List Str) :
    ∀ (ks : List Str) (d : Row) (k : Str),
      k ∈ keys (scanFold lines d ks) ↔ k ∈ keys d ∨ k ∈ ks := by
  intro ks
  induction ks with
  | nil => intro d k; simp [scanFold]
  | cons k0 ks ih =>
    intro d k
    rw [scanFold, ih]
    rw [keys_dictInsert]
    by_cases hk : k0 ∈ keys d
    · simp only [if_pos hk, List.mem_cons]
      constructor
      · rintro (h | h)
        · exact Or.inl h
        · exact Or.inr (Or.inr h)
      · rintro (h | rfl | h)
        · exact Or.inl h
        · exact Or.inl hk
        · exact Or.inr h
    · simp only [if_neg hk, List.mem_append, List.mem_singleton, List.mem_cons]
      tauto

theorem nodup_keys_scanFold (lines : List Str) :
    ∀ (ks : List Str) (d : Row), (keys d).Nodup → (keys (scanFold lines d ks)).Nodup := by
  intro ks
  induction ks with
  | nil => intro d h; simpa [scanFold] using h
  | cons k0 ks ih =>
    intro d h
    exact ih _ (nodup_keys_dictInsert k0 (rawValue lines k0) h)

theorem dlookup_map_clean (d : Row) (k : Str) :
    dlookup (d.map (fun p => (p.1, cleanVal p.1 p.2))) k =
      (dlookup d k).map (cleanVal k) := by
  induction d with
  | nil => simp [dlookup]
  | cons p ps ih =>
    by_cases h : p.1 = k
    · subst h
      simp [dlookup]
    · simpa [dlookup, h] using ih

/-! ## Claim theorems: record extractor -/

/-- Claim C2: for every input text and keyword list, the keyword scan of
`get_monster_info` produces a dict whose keys are exactly the configured
keywords (each present once); a keyword's value is the first pre-filtered
line starting with it, and exactly the empty string when no pre-filtered
line starts with it. -/
theorem claim_C2 (text : Str) (kws : List Str) (k : Str) :
    (dlookup (rawInfo text kws) k ≠ none ↔ k ∈ kws) ∧
    (keys (rawInfo text kws)).Nodup ∧
    (k ∈ kws → dlookup (rawInfo text kws) k =
      some (rawValue (filteredLines text kws) k)) ∧
    (k ∈ kws → (filteredLines text kws).find? (fun l => k.isPrefixOf l) = none →
      dlookup (rawInfo text kws) k = some []) := by
  refine ⟨?_, ?_, ?_, ?_⟩
  · rw [rawInfo, scanFold_lookup]
    by_cases hk : k ∈ kws
    · simp [hk]
    · simp [hk, dlookup]
  · exact nodup_keys_scanFold _ kws [] (by simp [keys])
  · intro hk
    rw [rawInfo, scanFold_lookup, if_pos hk]
  · intro hk hfind
    rw [rawInfo, scanFold_lookup, if_pos hk, rawValue, hfind]

theorem claim_C2_witness :
    dlookup (rawInfo "Race Human\nType Undead".data
        ["Race".data, "Type".data, "Alignment".data]) "Alignment".data = some [] := by
  have h := claim_C2 "Race Human\nType Undead".data
    ["Race".data, "Type".data, "Alignment".data] "Alignment".data
  exact h.2.2.2 (by decide) (by decide)

/-- Claim C3 counterexample: on the selected line `"Race Race Horse"` with
keyword `"Race"`, the code's cleaning deletes every occurrence of the
keyword and yields `"Horse"`, while the claimed first-occurrence-only
cleaning yields `"Race Horse"`. -/
theorem claim_C3_cex :
    dlookup (monsterInfo "Race Race Horse".data ["Race".data]) "Race".data =
      some "Horse".data ∧
    specCleanFirst "Race".data "Race Race Horse".data = "Race Horse".data ∧
    some "Horse".data ≠ some "Race Horse".data := by
  refine ⟨by decide, by decide, by decide⟩

/-- Claim C3 (amended): the cleaning removes every occurrence of the
keyword text, then every colon, then every `"(List)"` marker, then trims;
for every keyword of the schema, the extractor's final value is exactly
these steps applied to the first pre-filtered line selected for it. -/
theorem claim_C3 (text : Str) (kws : List Str) (k : Str) (hk : k ∈ kws) :
    dlookup (monsterInfo text kws) k =
      some (pyStrip (replAll "(List)".data
        (replAll ":".data (replAll k (rawValue (filteredLines text kws) k))))) := by
  rw [monsterInfo, dlookup_map_clean, rawInfo, scanFold_lookup, if_pos hk]
  rfl

theorem claim_C3_witness :
    dlookup (monsterInfo "Race: Human (List)\nType: Undead".data
        ["Race".data, "Type".data]) "Race".data = some "Human".data := by
  have h := claim_C3 "Race: Human (List)\nType: Undead".data
    ["Race".data, "Type".data] "Race".data (by decide)
  rw [h]
  decide

/-! ## Lemmas for the alignment decomposer -/

theorem lowChar_space {c : Char} (h : lowChar c = ' ') : c = ' ' := by
  unfold lowChar at h
  split_ifs at h with hc
  · exfalso
    have hv : (c.toNat + 32).isValidChar := Or.inl (by omega)
    have ht : (Char.ofNat (c.toNat + 32)).toNat = c.toNat + 32 := by
      unfold Char.ofNat
      rw [dif_pos hv]
      simp [Char.ofNatAux, Char.toNat, UInt32.toNat]
    rw [h] at ht
    have : (' ' : Char).toNat = 32 := by decide
    omega
  · exact h

theorem mem_space_of_pyLower_tn {l : Str} (h : pyLower l = "true neutral".data) :
    ' ' ∈ l := by
  have hsp : ' ' ∈ pyLower l := by
    rw [h]
    decide
  rcases List.mem_map.mp hsp with ⟨c, hc, hlc⟩
  exact (lowChar_space hlc) ▸ hc

theorem splitOnChar_ne_nil (sep : Char) (l : Str) : splitOnChar sep l ≠ [] := by
  cases l with
  | nil => simp [splitOnChar]
  | cons c cs =>
    rw [splitOnChar]
    cases hsp : splitOnChar sep cs with
    | nil => simp
    | cons t ts =>
      by_cases hc : c = sep <;> simp [hc]

theorem splitOnChar_single {sep : Char} {l t : Str} (h : splitOnChar sep l = [t]) :
    t = l ∧ sep ∉ l := by
  induction l generalizing t with
  | nil =>
    refine ⟨?_, by simp⟩
    rw [splitOnChar] at h
    exact (List.cons.injEq _ _ _ _ ▸ h).1.symm
  | cons c cs ih =>
    rw [splitOnChar] at h
    cases hsp : splitOnChar sep cs with
    | nil => exact absurd hsp (splitOnChar_ne_nil sep cs)
    | cons t' ts' =>
      rw [hsp] at h
      replace h : (if c = sep then [] :: t' :: ts' else (c :: t') :: ts') = [t] := h
      by_cases hc : c = sep
      · rw [if_pos hc] at h
        exact absurd (congrArg List.length h) (by simp)
      · rw [if_neg hc] at h
        have h1 : (c :: t') = t ∧ ts' = [] := by
          constructor
          · exact (List.cons.injEq _ _ _ _ ▸ h).1
          · exact (List.cons.injEq _ _ _ _ ▸ h).2
        rcases h1 with ⟨ht, hts⟩
        subst hts
        rcases ih hsp with ⟨rfl, hmem⟩
        refine ⟨ht.symm, ?_⟩
        intro hm
        rcases List.mem_cons.mp hm with h2 | h2
        · exact hc h2.symm
        · exact hmem h2

/-! ## Claim theorem: alignment decomposer -/

/-- Claim C4: `get_lawfulness` and `get_goodness` are element-wise maps
preserving order and length; an empty value yields an empty value at the
same position; a value whose trimmed lower-casing is `"true neutral"`
yields `"Neutral"` on both axes; a single-token value yields that token
on both axes; a multi-token value yields token 0 for lawfulness and
token 1 for goodness; and the spec's concrete example holds. -/
theorem claim_C4 :
    (∀ al : List Str, lawfulnessOf al = al.map law1 ∧ goodnessOf al = al.map good1) ∧
    (∀ al : List Str,
      (lawfulnessOf al).length = al.length ∧ (goodnessOf al).length = al.length) ∧
    (law1 [] = [] ∧ good1 [] = []) ∧
    (∀ a : Str, pyLower (pyStrip a) = "true neutral".data →
      law1 a = "Neutral".data ∧ good1 a = "Neutral".data) ∧
    (∀ (a t : Str), a ≠ [] → splitOnChar ' ' (pyStrip a) = [t] →
      law1 a = t ∧ good1 a = t) ∧
    (∀ (a t0 t1 : Str) (ts : List Str), a ≠ [] →
      pyLower (pyStrip a) ≠ "true neutral".data →
      splitOnChar ' ' (pyStrip a) = t0 :: t1 :: ts →
      law1 a = t0 ∧ good1 a = t1) ∧
    lawfulnessOf ["Chaotic Evil".data, "True Neutral".data, [], "Good".data] =
      ["Chaotic".data, "Neutral".data, [], "Good".data] ∧
    goodnessOf ["Chaotic Evil".data, "True Neutral".data, [], "Good".data] =
      ["Evil".data, "Neutral".data, [], "Good".data] := by
  have hmap : ∀ al : List Str, lawfulnessOf al = al.map law1 ∧ goodnessOf al = al.map good1 := by
    intro al
    induction al with
    | nil => exact ⟨rfl, rfl⟩
    | cons a as ih =>
      simp [lawfulnessOf, goodnessOf, ih.1, ih.2]
  have hsingle : ∀ (a t : Str), a ≠ [] → splitOnChar ' ' (pyStrip a) = [t] →
      law1 a = t ∧ good1 a = t := by
    intro a t ha hsp
    have hnt : pyLower (pyStrip a) ≠ "true neutral".data := by
      intro htn
      exact (splitOnChar_single hsp).2 (mem_space_of_pyLower_tn htn)
    rw [law1, if_neg ha, good1, if_neg ha, tnSub, if_neg hnt, hsp]
    exact ⟨rfl, rfl⟩
  refine ⟨hmap, ?_, ⟨rfl, rfl⟩, ?_, hsingle, ?_, by decide, by decide⟩
  · intro al
    rw [(hmap al).1, (hmap al).2]
    simp
  · intro a htn
    have ha : a ≠ [] := by
      rintro rfl
      exact absurd htn (by decide)
    rw [law1, if_neg ha, good1, if_neg ha, tnSub, if_pos htn]
    exact ⟨by decide, by decide⟩
  · intro a t0 t1 ts ha hnt hsp
    rw [law1, if_neg ha, good1, if_neg ha, tnSub, if_neg hnt, hsp]
    exact ⟨rfl, rfl⟩

theorem claim_C4_witness :
    (law1 "True Neutral".data = "Neutral".data ∧
      good1 "True Neutral".data = "Neutral".data) ∧
    (law1 "Chaotic Evil".data = "Chaotic".data ∧
      good1 "Chaotic Evil".data = "Evil".data) := by
  refine ⟨claim_C4.2.2.2.1 "True Neutral".data (by decide), ?_⟩
  exact claim_C4.2.2.2.2.2.1 "Chaotic Evil".data "Chaotic".data "Evil".data []
    (by decide) (by decide) (by decide)

/-! ## Claim theorems: pipeline degradation, None candidates, loop, empty candidates -/

/-- Claim C6 evaluation: with a schema that lacks "Alignment" (row
`{Name: Skeleton, Race: Human}`) the derived sort columns never exist and
the unconditional `sort_values` raises KeyError; likewise when "Race" is
absent even though "Alignment" is present. The pipeline crashes instead
of degrading. -/
theorem claim_C6 :
    assembleTable [[("Name".data, "Skeleton".data), ("Race".data, "Human".data)]] =
      PdResult.keyError ∧
    assembleTable [[("Name".data, "Skeleton".data),
      ("Alignment".data, "Chaotic Evil".data)]] = PdResult.keyError := by
  exact ⟨by decide, by decide⟩

/-- Claim C7 evaluation: a `None` candidate is stringified to the text
`"None"` before the dead `is None` test, so against the non-empty query
`"none"` it scores `1`, not `0` as the claim states. -/
theorem claim_C7 :
    pyStrOfOpt none = "None".data ∧
    scoreOfCand "none".data none = 1 ∧ (1 : ℚ) ≠ 0 := by
  refine ⟨rfl, ?_, by norm_num⟩
  have h1 : pyStrip (pyLower "none".data) = "none".data := by decide
  have h2 : pyStrip (pyLower (pyStrOfOpt none)) = "none".data := by decide
  have hm : matched "none".data "none".data = 4 := by decide
  have hl : ("none".data).length = 4 := by decide
  unfold scoreOfCand simScore ratioScore
  rw [h1, h2, hm, hl]
  norm_num

/-- Claim C8 counterexample: with the config loadable and every
resolution failing (a fetch error), the loop run on inputs
`["waterworks", "quit"]` terminates as `crashed` — a per-query error
ended the read-eval loop before the quit token was read, and that exit
is neither the quit exit nor a config-load exit. -/
theorem claim_C8_cex :
    mainLoop (.ok ()) (fun _ => .error "ConnectionError".data)
        ["waterworks".data, "quit".data] = .crashed "ConnectionError".data ∧
    LoopExit.crashed "ConnectionError".data ≠ LoopExit.quitExit ∧
    LoopExit.crashed "ConnectionError".data ≠
      LoopExit.configExit "ConnectionError".data := by
  exact ⟨by decide, by decide, by decide⟩

/-- Claim C8 (amended): `main_loop` has no handler around the query
resolution, so the first per-query error propagates and terminates the
read-eval loop at once; the loop otherwise ends on a quit token, or on a
config-load failure. -/
theorem claim_C8 (cfg : Except Str Unit) (resolve : Str → Except Str (List Row))
    (inp : Str) (rest : List Str) :
    (pyLower (pyStrip inp) ∈ quitTokens →
      mainLoop cfg resolve (inp :: rest) = .quitExit) ∧
    (∀ m : Str, pyLower (pyStrip inp) ∉ quitTokens → cfg = .error m →
      mainLoop cfg resolve (inp :: rest) = .configExit m) ∧
    (∀ e : Str, pyLower (pyStrip inp) ∉ quitTokens → cfg = .ok () →
      resolve (pyLower (pyStrip inp)) = .error e →
      mainLoop cfg resolve (inp :: rest) = .crashed e) := by
  refine ⟨?_, ?_, ?_⟩
  · intro hq
    simp [mainLoop, hq]
  · intro m hq hcfg
    subst hcfg
    simp [mainLoop, hq]
  · intro e hq hcfg hres
    subst hcfg
    simp [mainLoop, hq, hres]

theorem claim_C8_witness :
    mainLoop (.ok ()) (fun _ => .error "fetch failed".data)
      ["stormcleave".data, "quit".data] = .crashed "fetch failed".data := by
  have h := claim_C8 (.ok ()) (fun _ => .error "fetch failed".data)
    "stormcleave".data ["quit".data]
  exact h.2.2 "fetch failed".data (by decide) rfl rfl

/-- Claim C10: on an empty candidate sequence the matcher reaches `[-1]`
on an empty list, an uncaught IndexError; it never returns a candidate.
The model returns `none` for that failure, for every query string. -/
theorem claim_C10 (q : Str) : getClosestMatchingQuest q [] = none := rfl

/-- Claim C9 counterexample: the similarity score of the matcher is not
symmetric: on the (already lower-case, stripped) strings `"tide"` and
`"diet"` the two argument orders give `1/4` and `1/2`. -/
theorem claim_C9_cex :
    simScore "tide".data "diet".data = 1 / 4 ∧
    simScore "diet".data "tide".data = 1 / 2 ∧
    simScore "tide".data "diet".data ≠ simScore "diet".data "tide".data := by
  have e1 : pyStrip (pyLower "tide".data) = "tide".data := by decide
  have e2 : pyStrip (pyLower "diet".data) = "diet".data := by decide
  have hm1 : matched "tide".data "diet".data = 1 := by decide
  have hm2 : matched "diet".data "tide".data = 2 := by decide
  have hl1 : ("tide".data).length = 4 := by decide
  have hl2 : ("diet".data).length = 4 := by decide
  have h1 : simScore "tide".data "diet".data = 1 / 4 := by
    unfold simScore ratioScore
    rw [e1, e2, hm1, hl1, hl2]
    norm_num
  have h2 : simScore "diet".data "tide".data = 1 / 2 := by
    unfold simScore ratioScore
    rw [e1, e2, hm2, hl1, hl2]
    norm_num
  refine ⟨h1, h2, ?_⟩
  rw [h1, h2]
  norm_num

/-! ## Lemmas on the matching-block search -/

theorem cpl_self (l : Str) : cpl l l = l.length := by
  induction l with
  | nil => rfl
  | cons c cs ih => simp [cpl, ih]

theorem cpl_le_left : ∀ (x y : Str), cpl x y ≤ x.length := by
  intro x
  induction x with
  | nil => intro y; cases y <;> simp [cpl]
  | cons c cs ih =>
    intro y
    cases y with
    | nil => simp [cpl]
    | cons d ds =>
      by_cases h : c = d
      · simpa [cpl, h] using ih ds
      · simp [cpl, h]

theorem foldl_bestStep_stay (a b : Str) :
    ∀ (l : List (Nat × Nat)) (acc : Nat × Nat × Nat),
      (∀ ij ∈ l, cpl (a.drop ij.1) (b.drop ij.2) ≤ acc.2.2) →
      l.foldl (bestStep a b) acc = acc := by
  intro l
  induction l with
  | nil => intro acc _; rfl
  | cons ij l ih =>
    intro acc h
    rw [List.foldl_cons]
    have h1 : bestStep a b acc ij = acc := by
      rw [bestStep]
      rw [if_neg (by simpa using Nat.not_lt.mpr (h ij (List.mem_cons_self _ _)))]
    rw [h1]
    exact ih acc (fun p hp => h p (List.mem_cons_of_mem _ hp))

theorem bestMatch_self (a : Str) (ha : a ≠ []) : bestMatch a a = (0, 0, a.length) := by
  obtain ⟨n, hn⟩ : ∃ n, a.length = n + 1 := by
    cases hl : a.length with
    | zero => exact absurd (List.length_eq_zero.mp hl) ha
    | succ n => exact ⟨n, rfl⟩
  obtain ⟨L, hL⟩ : ∃ L, allPairs a.length a.length = (0, 0) :: L := by
    rw [allPairs, hn, List.range_succ_eq_map, List.flatMap_cons, List.map_cons,
      List.cons_append]
    exact ⟨_, rfl⟩
  rw [bestMatch, hL, List.foldl_cons]
  have h0 : bestStep a a (0, 0, 0) (0, 0) = (0, 0, a.length) := by
    rw [bestStep]
    simp [cpl_self, hn]
  rw [h0]
  apply foldl_bestStep_stay
  intro ij _
  calc cpl (a.drop ij.1) (a.drop ij.2) ≤ (a.drop ij.1).length := cpl_le_left _ _
  _ ≤ a.length := by simp

theorem matchedF_nil_nil (f : Nat) : matchedF f [] [] = 0 := by
  cases f <;> rfl

theorem matched_self (a : Str) : matched a a = a.length := by
  by_cases ha : a = []
  · subst ha
    rfl
  · have hpos : 1 ≤ a.length := by
      cases hl : a.length with
      | zero => exact absurd (List.length_eq_zero.mp hl) ha
      | succ n => omega
    obtain ⟨m, hm⟩ : ∃ m, a.length + a.length = m + 1 := ⟨a.length + a.length - 1, by omega⟩
    rw [matched, hm, matchedF, bestMatch_self a ha]
    simp only []
    rw [if_neg (by omega)]
    simp [matchedF_nil_nil]

theorem ratioScore_self (x : Str) : ratioScore x x = 1 := by
  by_cases hx : x = []
  · subst hx
    rfl
  · have hn : x.length ≠ 0 := by
      intro h
      exact hx (List.length_eq_zero.mp h)
    rw [ratioScore, if_neg (by omega), matched_self]
    have hcast : ((x.length + x.length : Nat) : ℚ) = 2 * (x.length : ℚ) := by
      push_cast
      ring
    rw [hcast]
    have hq : (x.length : ℚ) ≠ 0 := Nat.cast_ne_zero.mpr hn
    exact div_self (mul_ne_zero two_ne_zero hq)

/-- Claim C9 (amended): the similarity score is not symmetric in general —
swapping the arguments can change its value (`simScore "tide" "diet" = 1/4`
while `simScore "diet" "tide" = 1/2`); the metric is reflexive: the score
of any string against itself is `1`. -/
theorem claim_C9 (s : Str) : simScore s s = 1 := ratioScore_self _

/-! ## Sortedness of stable insertion -/

theorem sinsert_ne_nil {α : Type} (le : α → α → Bool) (x : α) (l : List α) :
    sinsert le x l ≠ [] := by
  cases l with
  | nil => simp [sinsert]
  | cons y ys =>
    rw [sinsert]
    by_cases h : le y x <;> simp [h]

theorem chain'_sinsert {α : Type} (le : α → α → Bool)
    (htot : ∀ x y, le x y = true ∨ le y x = true) (x : α) :
    ∀ l : List α, List.Chain' (fun p q => le p q = true) l →
      List.Chain' (fun p q => le p q = true) (sinsert le x l) := by
  intro l
  induction l with
  | nil => intro _; simp [sinsert]
  | cons y ys ih =>
    intro hc
    rw [sinsert]
    by_cases hyx : le y x = true
    · rw [if_pos hyx]
      rw [List.chain'_cons']
      refine ⟨?_, ih hc.tail⟩
      intro z hz
      cases ys with
      | nil =>
        simp [sinsert] at hz
        subst hz
        exact hyx
      | cons w ws =>
        rw [sinsert] at hz
        by_cases hwx : le w x = true
        · rw [if_pos hwx] at hz
          simp at hz
          subst hz
          exact (List.chain'_cons.mp hc).1
        · rw [if_neg hwx] at hz
          simp at hz
          subst hz
          exact hyx
    · rw [if_neg hyx]
      rw [List.chain'_cons]
      rcases htot x y with h | h
      · exact ⟨h, hc⟩
      · exact absurd h hyx

theorem chain'_pySorted {α : Type} (le : α → α → Bool)
    (htot : ∀ x y, le x y = true ∨ le y x = true) (l : List α) :
    List.Chain' (fun p q => le p q = true) (pySorted le l) := by
  suffices h : ∀ (l : List α) (acc : List α),
      List.Chain' (fun p q => le p q = true) acc →
      List.Chain' (fun p q => le p q = true)
        (l.foldl (fun d x => sinsert le x d) acc) by
    exact h l [] List.chain'_nil
  intro l
  induction l with
  | nil => intro acc hacc; exact hacc
  | cons x xs ih =>
    intro acc hacc
    rw [List.foldl_cons]
    exact ih _ (chain'_sinsert le htot x acc hacc)

/-! ## The row order is total -/

theorem natCmp_swap (m n : Nat) : natCmp n m = (natCmp m n).swap := by
  unfold natCmp
  rcases Nat.lt_trichotomy m n with h | h | h
  · rw [if_pos h, if_neg (by omega), if_pos h]
    rfl
  · subst h
    simp only [if_neg (Nat.lt_irrefl m)]
    rfl
  · rw [if_pos h, if_neg (by omega), if_pos h]
    rfl

theorem strCmp_swap : ∀ a b : Str, strCmp b a = (strCmp a b).swap := by
  intro a
  induction a with
  | nil => intro b; cases b <;> rfl
  | cons x xs ih =>
    intro b
    cases b with
    | nil => rfl
    | cons y ys =>
      have hs := natCmp_swap x.toNat y.toNat
      cases h : natCmp x.toNat y.toNat with
      | lt =>
        rw [h] at hs
        simp [strCmp, h, hs]
        rfl
      | gt =>
        rw [h] at hs
        simp [strCmp, h, hs]
        rfl
      | eq =>
        rw [h] at hs
        simp [strCmp, h, hs]
        exact ih ys

theorem keyCmp_swap : ∀ a b : List Str, keyCmp b a = (keyCmp a b).swap := by
  intro a
  induction a with
  | nil => intro b; cases b <;> rfl
  | cons x xs ih =>
    intro b
    cases b with
    | nil => rfl
    | cons y ys =>
      have hs := strCmp_swap x y
      cases h : strCmp x y with
      | lt =>
        rw [h] at hs
        simp [keyCmp, h, hs]
        rfl
      | gt =>
        rw [h] at hs
        simp [keyCmp, h, hs]
        rfl
      | eq =>
        rw [h] at hs
        simp [keyCmp, h, hs]
        exact ih ys

theorem rowLeB_total (r s : Row) : rowLeB r s = true ∨ rowLeB s r = true := by
  rw [rowLeB, rowLeB]
  cases h : keyCmp (rowKey r) (rowKey s) with
  | lt => exact Or.inl rfl
  | eq => exact Or.inl rfl
  | gt =>
    right
    rw [keyCmp_swap, h]
    rfl

/-! ## Claim theorem: output table sortedness -/

/-- Claim C5: whenever the DataFrame stage of `get_monsters_in_quest`
returns a table (rather than raising), every adjacent pair of output rows
is non-decreasing under the lexicographic tuple
(Lawfulness, Goodness, Race, Name). The rows are required to share one
key list, as every table the pipeline assembles does; outside that domain
pandas would introduce NaN values this string model does not represent. -/
theorem claim_C5 (rows out : List Row) (_huni : uniformB rows = true)
    (h : assembleTable rows = PdResult.ok out) :
    List.Chain' (fun r s => rowLeB r s = true) out := by
  rw [assembleTable] at h
  by_cases hc : (sortCols.all (fun c => decide (c ∈ columnsOf (deriveStage rows)))) = true
  · rw [if_pos hc] at h
    have : pySorted rowLeB (deriveStage rows) = out := by
      cases h
      rfl
    rw [← this]
    exact chain'_pySorted rowLeB rowLeB_total _
  · rw [if_neg hc] at h
    cases h

theorem claim_C5_witness :
    List.Chain' (fun r s => rowLeB r s = true)
      [[("Name".data, "a".data), ("Race".data, "r".data),
        ("Lawfulness".data, "Lawful".data), ("Goodness".data, "Good".data)]] := by
  exact claim_C5
    [[("Name".data, "a".data), ("Race".data, "r".data),
      ("Alignment".data, "Lawful Good".data)]]
    [[("Name".data, "a".data), ("Race".data, "r".data),
      ("Lawfulness".data, "Lawful".data), ("Goodness".data, "Good".data)]]
    (by decide) (by decide)

/-! ## The last element of the stable ascending sort -/

theorem scoreLeB_iff (p q : ℚ × Str) : scoreLeB p q = true ↔ p.1 ≤ q.1 := by
  simp [scoreLeB]

theorem scoreLeB_total (p q : ℚ × Str) : scoreLeB p q = true ∨ scoreLeB q p = true := by
  rcases le_total p.1 q.1 with h | h
  · exact Or.inl ((scoreLeB_iff _ _).mpr h)
  · exact Or.inr ((scoreLeB_iff _ _).mpr h)

theorem chain_head_le_getLast :
    ∀ (ys : List (ℚ × Str)) (y m : ℚ × Str),
      List.Chain' (fun p q => scoreLeB p q = true) (y :: ys) →
      (y :: ys).getLast? = some m → y.1 ≤ m.1 := by
  intro ys
  induction ys with
  | nil =>
    intro y m _ hm
    have : y = m := by simpa using hm
    subst this
    exact le_refl _
  | cons z zs ih =>
    intro y m hc hm
    rw [List.getLast?_cons_cons] at hm
    have h1 : y.1 ≤ z.1 := (scoreLeB_iff _ _).mp (List.chain'_cons.mp hc).1
    exact le_trans h1 (ih z m (List.chain'_cons.mp hc).2 hm)

theorem getLast?_sinsert_score (x : ℚ × Str) :
    ∀ l : List (ℚ × Str), List.Chain' (fun p q => scoreLeB p q = true) l →
      (sinsert scoreLeB x l).getLast? = some (mergeOne l.getLast? x) := by
  intro l
  induction l with
  | nil => intro _; rfl
  | cons y ys ih =>
    intro hc
    rw [sinsert]
    by_cases hyx : scoreLeB y x = true
    · rw [if_pos hyx]
      cases ys with
      | nil =>
        have hy : y.1 ≤ x.1 := (scoreLeB_iff _ _).mp hyx
        simp [sinsert, mergeOne, hy]
      | cons z zs =>
        have hlhs : (y :: sinsert scoreLeB x (z :: zs)).getLast? =
            (sinsert scoreLeB x (z :: zs)).getLast? := by
          rcases hsi : sinsert scoreLeB x (z :: zs) with _ | ⟨w, ws⟩
          · exact absurd hsi (sinsert_ne_nil _ _ _)
          · rw [List.getLast?_cons_cons]
        rw [hlhs, ih hc.tail, List.getLast?_cons_cons]
    · rw [if_neg hyx]
      rw [List.getLast?_cons_cons]
      obtain ⟨m, hm⟩ : ∃ m, (y :: ys).getLast? = some m :=
        Option.isSome_iff_exists.mp (List.getLast?_isSome.mpr (by simp))
      rw [hm]
      have hxy : x.1 < y.1 := not_le.mp (fun h => hyx ((scoreLeB_iff _ _).mpr h))
      have hym : y.1 ≤ m.1 := chain_head_le_getLast ys y m hc hm
      have hnm : ¬ m.1 ≤ x.1 := fun hmx => absurd (le_trans hym hmx) (not_le.mpr hxy)
      simp [mergeOne, hnm]

theorem foldl_sinsert_getLast :
    ∀ (l acc : List (ℚ × Str)),
      List.Chain' (fun p q => scoreLeB p q = true) acc →
      (l.foldl (fun d x => sinsert scoreLeB x d) acc).getLast? =
        lastFrom acc.getLast? l := by
  intro l
  induction l with
  | nil => intro acc _; rfl
  | cons x xs ih =>
    intro acc hacc
    rw [List.foldl_cons,
      ih _ (chain'_sinsert scoreLeB scoreLeB_total x acc hacc),
      getLast?_sinsert_score x acc hacc]
    rfl

theorem getLast?_pySorted (l : List (ℚ × Str)) :
    (pySorted scoreLeB l).getLast? = lastFrom none l :=
  foldl_sinsert_getLast l [] List.chain'_nil

/-! ## The spec's tie-break characterises that last element -/

/-- Merge a candidate listed before `s`'s candidates with the best of
`s`: the earlier candidate survives only on a strictly higher score. -/
def mergeBest (m : ℚ × Str) (s : Option (ℚ × Str)) : Option (ℚ × Str) :=
  match s with
  | none => some m
  | some b => if b.1 < m.1 then some m else some b

theorem mergeBest_mergeOne (m x : ℚ × Str) (s : Option (ℚ × Str)) :
    mergeBest (mergeOne (some m) x) s = mergeBest m (mergeBest x s) := by
  cases s with
  | none =>
    simp only [mergeBest, mergeOne]
    by_cases hmx : m.1 ≤ x.1
    · rw [if_pos hmx, if_neg (not_lt.mpr hmx)]
    · rw [if_neg hmx, if_pos (not_le.mp hmx)]
  | some b =>
    by_cases hbx : b.1 < x.1
    · have h1 : mergeBest x (some b) = some x := by simp [mergeBest, hbx]
      rw [h1]
      by_cases hmx : m.1 ≤ x.1
      · have h2 : mergeOne (some m) x = x := by simp [mergeOne, hmx]
        rw [h2]
        simp [mergeBest, hbx, not_lt.mpr hmx]
      · have h2 : mergeOne (some m) x = m := by simp [mergeOne, hmx]
        have hxm : x.1 < m.1 := not_le.mp hmx
        rw [h2]
        simp [mergeBest, lt_trans hbx hxm, hxm]
    · have h1 : mergeBest x (some b) = some b := by simp [mergeBest, hbx]
      rw [h1]
      by_cases hmx : m.1 ≤ x.1
      · have h2 : mergeOne (some m) x = x := by simp [mergeOne, hmx]
        have hxb : x.1 ≤ b.1 := not_lt.mp hbx
        rw [h2]
        simp [mergeBest, hbx, not_lt.mpr (le_trans hmx hxb)]
      · have h2 : mergeOne (some m) x = m := by simp [mergeOne, hmx]
        rw [h2]

theorem specBest_cons (x : ℚ × Str) (xs : List (ℚ × Str)) :
    specBestCandidate (x :: xs) = mergeBest x (specBestCandidate xs) := rfl

theorem lastFrom_some :
    ∀ (l : List (ℚ × Str)) (m : ℚ × Str),
      lastFrom (some m) l = mergeBest m (specBestCandidate l) := by
  intro l
  induction l with
  | nil => intro m; rfl
  | cons x xs ih =>
    intro m
    show lastFrom (some (mergeOne (some m) x)) xs = _
    rw [ih, specBest_cons, mergeBest_mergeOne]

theorem lastFrom_none (l : List (ℚ × Str)) :
    lastFrom none l = specBestCandidate l := by
  cases l with
  | nil => rfl
  | cons x xs =>
    show lastFrom (some (mergeOne none x)) xs = _
    rw [lastFrom_some, specBest_cons]
    rfl

theorem specBest_cons_ne_none (x : ℚ × Str) (xs : List (ℚ × Str)) :
    specBestCandidate (x :: xs) ≠ none := by
  cases hb : specBestCandidate xs with
  | none => simp [specBest_cons, mergeBest, hb]
  | some b => by_cases hlt : b.1 < x.1 <;> simp [specBest_cons, mergeBest, hb, hlt]

theorem specBest_mem :
    ∀ {l : List (ℚ × Str)} {p : ℚ × Str}, specBestCandidate l = some p → p ∈ l := by
  intro l
  induction l with
  | nil => intro p h; cases h
  | cons x xs ih =>
    intro p h
    rw [specBest_cons] at h
    cases hb : specBestCandidate xs with
    | none =>
      rw [hb] at h
      have : x = p := by simpa [mergeBest] using h
      subst this
      exact List.mem_cons_self _ _
    | some b =>
      rw [hb] at h
      by_cases hlt : b.1 < x.1
      · have : x = p := by simpa [mergeBest, hlt] using h
        subst this
        exact List.mem_cons_self _ _
      · have : b = p := by simpa [mergeBest, hlt] using h
        subst this
        exact List.mem_cons_of_mem _ (ih hb)

theorem specBest_max :
    ∀ {l : List (ℚ × Str)} {p : ℚ × Str}, specBestCandidate l = some p →
      ∀ s ∈ l, s.1 ≤ p.1 := by
  intro l
  induction l with
  | nil => intro p _ s hs; cases hs
  | cons x xs ih =>
    intro p h s hs
    rw [specBest_cons] at h
    cases hb : specBestCandidate xs with
    | none =>
      rw [hb] at h
      have hxp : x = p := by simpa [mergeBest] using h
      subst hxp
      rcases List.mem_cons.mp hs with rfl | hs'
      · exact le_refl _
      · cases xs with
        | nil => cases hs'
        | cons z zs => exact absurd hb (specBest_cons_ne_none z zs)
    | some b =>
      rw [hb] at h
      have hih := ih hb
      by_cases hlt : b.1 < x.1
      · have hxp : x = p := by simpa [mergeBest, hlt] using h
        subst hxp
        rcases List.mem_cons.mp hs with rfl | hs'
        · exact le_refl _
        · exact le_of_lt (lt_of_le_of_lt (hih s hs') hlt)
      · have hbp : b = p := by simpa [mergeBest, hlt] using h
        subst hbp
        rcases List.mem_cons.mp hs with rfl | hs'
        · exact not_lt.mp hlt
        · exact hih s hs'

theorem getClosest_eq_specBest (q : Str) (cands : List Str) :
    getClosestMatchingQuest q cands =
      Option.map Prod.snd (specBestCandidate (scoredCandidates q cands)) := by
  rw [getClosestMatchingQuest, List.getLast?_map, getLast?_pySorted, lastFrom_none]

/-! ## Claim theorem: the fuzzy matcher -/

/-- Claim C1: on a non-empty candidate list the matcher returns one of
the supplied candidate strings (never a novel string), that candidate's
score is maximal, the result is exactly the spec's tie-break — the
last-listed candidate among those tied for the highest score, which is
the last element of a stable ascending sort by score — and for any text
`x`, matching `x` against `[x]` returns `x` itself. -/
theorem claim_C1 (q : Str) (cands : List Str) (h : cands ≠ []) :
    (∃ r, getClosestMatchingQuest q cands = some r ∧ r ∈ cands ∧
      ∀ c ∈ cands, simScore q c ≤ simScore q r) ∧
    getClosestMatchingQuest q cands =
      Option.map Prod.snd (specBestCandidate (scoredCandidates q cands)) ∧
    (∀ x : Str, getClosestMatchingQuest x [x] = some x) := by
  refine ⟨?_, getClosest_eq_specBest q cands, fun x => rfl⟩
  obtain ⟨c, cs, rfl⟩ : ∃ c cs, cands = c :: cs := by
    cases cands with
    | nil => exact absurd rfl h
    | cons c cs => exact ⟨c, cs, rfl⟩
  obtain ⟨p, hp⟩ : ∃ p, specBestCandidate (scoredCandidates q (c :: cs)) = some p := by
    cases hb : specBestCandidate (scoredCandidates q (c :: cs)) with
    | none => exact absurd hb (specBest_cons_ne_none _ _)
    | some p => exact ⟨p, rfl⟩
  obtain ⟨c', hc', hpc⟩ := List.mem_map.mp (specBest_mem hp)
  refine ⟨p.2, ?_, ?_, ?_⟩
  · rw [getClosest_eq_specBest, hp]
    rfl
  · rw [← hpc]
    exact hc'
  · intro d hd
    have hd' : (simScore q d, d) ∈ scoredCandidates q (c :: cs) :=
      List.mem_map.mpr ⟨d, hd, rfl⟩
    have hle := specBest_max hp _ hd'
    rw [← hpc] at hle ⊢
    exact hle

theorem claim_C1_witness :
    getClosestMatchingQuest "The Pit".data ["The Pit".data] = some "The Pit".data :=
  (claim_C1 "The Pit".data ["The Pit".data] (by decide)).2.2 "The Pit".data

end DDOScraper
